import Mathlib

/-!
Shallow embedding of the gtpm pattern matcher (gtpm.go): the pattern
compiler (`Compile`) and the streaming match engine (instruction
closures `genInstConst`, `genInstVarWithSize`, `genInstVarWithoutSize`,
`genInstIntWithSize`, `genInstIntWithoutSize`, and `MatchReader`).

Go specifics modelled explicitly:
* the `intBinds []int` slice is modelled with its generations: an append
  that exceeds capacity reallocates, freezing the previous backing array;
  a pointer taken earlier keeps referring to the frozen array (`Mem`,
  `Ptr`), exactly as Go pointers into a reallocated slice do;
* `strconv.ParseInt(s, 10, 64)` is modelled by `parseIntGo` (optional
  sign, non-empty digit run, 64-bit signed range);
* an `io.Reader` is modelled as a list of byte chunks (`Src`); a read
  request is served from the first chunk, possibly partially; an empty
  source yields the EOF error;
* out-of-range slice indexing in `Compile` (empty field) and
  `make([]byte, n)` with negative `n` are modelled by explicit
  panic/crash outcomes.
-/

namespace Gtpm

/-- Bytes are modelled as `Char` (the Go code treats the pattern string and
the input stream as byte sequences; all claims use ASCII data). -/
abbrev Byte := Char

/-- A pointer into the `intBinds` slice: `gen` is the number of
reallocations that had happened when the pointer was taken, `idx` the
element index. -/
structure Ptr where
  gen : Nat
  idx : Nat
deriving DecidableEq

/-- The `intBinds []int` slice of a `TextPatternMatcher`, with its full
reallocation history: `old` lists the frozen backing arrays (in order of
generation), `live` is the current backing array, `cap` its capacity. -/
structure Mem where
  old : List (List Int)
  live : List Int
  cap : Nat
deriving DecidableEq

/-- `append(intBinds, v)`: in place while `len < cap`, otherwise the Go
runtime reallocates (capacity 0 → 1, then doubling for these sizes),
freezing the previous backing array. -/
def Mem.push (m : Mem) (v : Int) : Mem :=
  if m.live.length < m.cap then { m with live := m.live ++ [v] }
  else { old := m.old ++ [m.live], live := m.live ++ [v], cap := max 1 (2 * m.cap) }

/-- Generation index of the live backing array. -/
def Mem.gen (m : Mem) : Nat := m.old.length

/-- Dereference a pointer (`*p`). -/
def Mem.read (m : Mem) (p : Ptr) : Int :=
  if p.gen < m.old.length then ((m.old.getD p.gen []).getD p.idx 0)
  else m.live.getD p.idx 0

/-- Write through a pointer (`*p = v`). -/
def Mem.write (m : Mem) (p : Ptr) (v : Int) : Mem :=
  if p.gen < m.old.length then
    { m with old := m.old.set p.gen ((m.old.getD p.gen []).set p.idx v) }
  else { m with live := m.live.set p.idx v }

/-- `&intBinds[len(intBinds)-1]`, taken right after a push. -/
def Mem.lastPtr (m : Mem) : Ptr := ⟨m.gen, m.live.length - 1⟩

/-- `&intBinds[i]` taken now (points into the current live array). -/
def Mem.ptrAt (m : Mem) (i : Nat) : Ptr := ⟨m.gen, i⟩

/-- `strconv.ParseInt` digit run: all decimal digits, non-empty. -/
def parseDigits : List Byte → Option Nat
  | [] => none
  | [c] => if '0' ≤ c ∧ c ≤ '9' then some (c.toNat - 48) else none
  | c :: rest =>
    if '0' ≤ c ∧ c ≤ '9' then
      (parseDigits rest).map (fun n => (c.toNat - 48) * 10 ^ rest.length + n)
    else none

/-- `strconv.ParseInt(s, 10, 64)`: optional sign, non-empty digit run,
value within the signed 64-bit range (out-of-range input is an error,
which `Compile` treats like any other parse failure). -/
def parseIntGo (s : List Byte) : Option Int :=
  match s with
  | '+' :: rest => (parseDigits rest).bind fun n =>
      if (n : Int) ≤ 2 ^ 63 - 1 then some (n : Int) else none
  | '-' :: rest => (parseDigits rest).bind fun n =>
      if (n : Int) ≤ 2 ^ 63 then some (-(n : Int)) else none
  | _ => (parseDigits s).bind fun n =>
      if (n : Int) ≤ 2 ^ 63 - 1 then some (n : Int) else none

/-- The compiled instruction stream (the Go code materializes these as
closures; each variant records the parameters the closure captures). -/
inductive Inst where
  /-- `genInstConst pos match` -/
  | constI (pos : Nat) (pat : List Byte)
  /-- `genInstVarWithSize pos size capture` -/
  | varSized (pos : Nat) (size : Ptr) (capture : Bool)
  /-- `genInstVarWithoutSize pos suffix capture max` -/
  | varSuffix (pos : Nat) (sfx : List Byte) (capture : Bool) (maxv : Int)
  /-- `genInstIntWithSize pos size outSize` -/
  | intSized (pos : Nat) (size : Ptr) (outc : Ptr)
  /-- `genInstIntWithoutSize pos suffix outSize max` -/
  | intSuffix (pos : Nat) (sfx : List Byte) (outc : Ptr) (maxv : Int)
deriving DecidableEq

/-- Runtime error causes: the reader's EOF error, or a `strconv`
numeric-parse error on the given bytes. -/
inductive Cause where
  | ioEOF
  | numErr (s : List Byte)
deriving DecidableEq

/-- Runtime error codes (`ErrConstNotMuch` etc.). -/
inductive RCode where
  | constNotMuch
  | varNotMuch
  | intVarNotMuch
  | varExceedMax (maxv : Int)
deriving DecidableEq

/-- A runtime `Error{Code, Pos, Cause}` value. -/
structure RunError where
  code : RCode
  pos : Nat
  cause : Option Cause
deriving DecidableEq

/-- An input source: the unread byte stream, as the list of chunks the
reader will deliver (a read request is served from the first chunk,
possibly partially; an exhausted source returns the EOF error). -/
abbrev Src := List (List Byte)

/-- Total number of unread bytes. -/
def srcSize (s : Src) : Nat := (s.map List.length).sum

/-- Deliver one byte (`r.Read(buf[idx:idx+1])`): empty chunks are
skipped, an exhausted source is an EOF error (`none`). -/
def readByte : Src → Option (Byte × Src)
  | [] => none
  | [] :: rest => readByte rest
  | (b :: bs) :: rest => some (b, bs :: rest)

/-- Fill exactly `n` bytes by repeated reads (the
`for i := 0; i < l; { n, err := r.Read(buf[i:]); i += n }` loop):
`none` is the EOF error, otherwise the filled bytes and the rest of the
source. No read is issued when `n = 0`. -/
def fill : Src → Nat → Option (List Byte × Src)
  | src, 0 => some ([], src)
  | [], _ + 1 => none
  | c :: rest, n + 1 =>
    if c.length < n + 1 then
      match fill rest (n + 1 - c.length) with
      | none => none
      | some (bs, s') => some (c ++ bs, s')
    else
      some (c.take (n + 1), if n + 1 < c.length then c.drop (n + 1) :: rest else rest)

/-- Result of the suffix-scanning loop shared by `genInstVarWithoutSize`
and `genInstIntWithoutSize`. -/
inductive ScanRes where
  | found (pre : List Byte) (rest : Src)
  | eofErr
  | sizeErr
deriving DecidableEq

/-- The suffix-scanning loop: single-byte reads into a growing buffer
`buf` of capacity `bs` (starting at 16, doubling at `idx == bs`, failing
when the doubled capacity exceeds `maxv`); after each read, once
`idx ≥ len(suffix)`, the window `buf[midx : midx+len(suffix)]` is
compared with the suffix, `midx` advancing by one on each failed
comparison. The loop terminates because every iteration consumes one
byte of the source; `fuel` makes this structural: callers pass
`srcSize src + 1`, which exceeds the number of reads that can succeed,
so the out-of-fuel branch is unreachable (`scan_fuel_irrelevant`). -/
def scan (sfx : List Byte) (maxv : Int) : Nat → Src → List Byte → Nat → Nat → Nat → ScanRes
  | 0, _, _, _, _, _ => .eofErr
  | fuel + 1, src, buf, idx, midx, bs =>
    match readByte src with
    | none => .eofErr
    | some (b, src') =>
      let buf1 := buf.set idx b
      let idx1 := idx + 1
      if sfx.length ≤ idx1 ∧ (buf1.drop midx).take sfx.length = sfx then
        .found (buf1.take midx) src'
      else
        let midx1 := if sfx.length ≤ idx1 then midx + 1 else midx
        if idx1 = bs then
          if (2 * bs : Int) > maxv then .sizeErr
          else scan sfx maxv fuel src' (buf1 ++ List.replicate bs (Char.ofNat 0)) idx1 midx1 (2 * bs)
        else scan sfx maxv fuel src' buf1 idx1 midx1 bs

/-- The zero-initialized 16-byte buffer `make([]byte, 16)` the scan
starts from. -/
def buf0 : List Byte := List.replicate 16 (Char.ofNat 0)

/-- Result of executing one instruction: success with an optional
capture (Go returns `nil` for non-capturing success), a structured
runtime error, or a Go runtime panic (`crash`). -/
inductive ExecRes where
  | ok (cap : Option (List Byte)) (rest : Src) (mem : Mem)
  | err (e : RunError)
  | crash
deriving DecidableEq

/-- Execute one instruction against the source and the matcher's
`intBinds` memory. `make([]byte, n)` with negative `n` (a negative size
cell) is a Go panic, modelled as `crash`. -/
def execInst (i : Inst) (src : Src) (mem : Mem) : ExecRes :=
  match i with
  | .constI pos pat =>
    match fill src pat.length with
    | none => .err ⟨.constNotMuch, pos, some .ioEOF⟩
    | some (bs, rest) =>
      if bs = pat then .ok none rest mem else .err ⟨.constNotMuch, pos, none⟩
  | .varSized pos sz capture =>
    let n := mem.read sz
    if n < 0 then .crash
    else
      match fill src n.toNat with
      | none => .err ⟨.varNotMuch, pos, some .ioEOF⟩
      | some (bs, rest) => .ok (if capture then some bs else none) rest mem
  | .intSized pos sz outc =>
    let n := mem.read sz
    if n < 0 then .crash
    else
      match fill src n.toNat with
      | none => .err ⟨.intVarNotMuch, pos, some .ioEOF⟩
      | some (bs, rest) =>
        match parseIntGo bs with
        | none => .err ⟨.intVarNotMuch, pos, some (.numErr bs)⟩
        | some v => .ok (some bs) rest (mem.write outc v)
  | .varSuffix pos sfx capture maxv =>
    match scan sfx maxv (srcSize src + 1) src buf0 0 0 16 with
    | .found pre rest => .ok (if capture then some pre else none) rest mem
    | .eofErr => .err ⟨.varNotMuch, pos, some .ioEOF⟩
    | .sizeErr => .err ⟨.varExceedMax maxv, pos, none⟩
  | .intSuffix pos sfx outc maxv =>
    match scan sfx maxv (srcSize src + 1) src buf0 0 0 16 with
    | .found pre rest =>
      match parseIntGo pre with
      | none => .err ⟨.intVarNotMuch, pos, some (.numErr pre)⟩
      | some v => .ok (some pre) rest (mem.write outc v)
    | .eofErr => .err ⟨.intVarNotMuch, pos, some .ioEOF⟩
    | .sizeErr => .err ⟨.varExceedMax maxv, pos, none⟩

/-- Result of `MatchReader`: the ordered capture list, the unread rest of
the source and the final memory; or the first runtime error; or a panic. -/
inductive MatchRes where
  | ok (caps : List (List Byte)) (rest : Src) (mem : Mem)
  | err (e : RunError)
  | crash
deriving DecidableEq

/-- `MatchReader`: run the instructions in order, collecting the non-nil
returned buffers in order; stop at the first error. -/
def runInsts : List Inst → Src → Mem → MatchRes
  | [], src, mem => .ok [] src mem
  | i :: rest, src, mem =>
    match execInst i src mem with
    | .crash => .crash
    | .err e => .err e
    | .ok cap src' mem' =>
      match runInsts rest src' mem' with
      | .ok caps r m =>
        .ok (match cap with | some c => c :: caps | none => caps) r m
      | .err e => .err e
      | .crash => .crash

/-- `strings.Split(s, sep)` for a one-byte separator: always returns at
least one (possibly empty) token. -/
def splitOnChar (sep : Byte) : List Byte → List (List Byte)
  | [] => [[]]
  | c :: rest =>
    if c = sep then [] :: splitOnChar sep rest
    else
      match splitOnChar sep rest with
      | f :: fs => (c :: f) :: fs
      | [] => [[c]]

/-- The sequence of raw lines produced by repeated
`ReadString(',')` on the pattern: each line keeps its trailing comma;
the last line is the remainder after the last comma (empty when the
pattern is empty or ends in a comma). -/
def rawFields : List Byte → List (List Byte)
  | [] => [[]]
  | c :: rest =>
    if c = ',' then [','] :: rawFields rest
    else
      match rawFields rest with
      | f :: fs => (c :: f) :: fs
      | [] => [[c]]

/-- The `parseState` of the compile loop. -/
inductive PState where
  | non
  | blind
  | bin
  | int
deriving DecidableEq

/-- Compile-time error codes. -/
inductive CCode where
  | colonExpected
  | varNotDefined (name : List Byte)
  | suffixExpected
  | invalidSlash
  | invalidType
deriving DecidableEq

/-- A compile-time `Error{Code, Pos}` value. -/
structure CompErr where
  code : CCode
  pos : Nat
deriving DecidableEq

/-- The mutable state of the compile loop: the matcher being built
(instruction list, `intBinds` memory, `maxVarSize`), the name→index map
`intBindsMap`, the `parseState` and the pending integer-variable name. -/
structure CState where
  insts : List Inst
  mem : Mem
  binds : List (List Byte × Nat)
  st : PState
  pending : List Byte
  maxv : Int
deriving DecidableEq

/-- `intBindsMap[name]` (latest assignment wins). -/
def lookupBind (bs : List (List Byte × Nat)) (n : List Byte) : Option Nat :=
  match bs with
  | [] => none
  | (k, v) :: rest => if k = n then some v else lookupBind rest n

/-- Result of processing one raw line: a new state, a compile error, or
a Go panic (out-of-range slice index on an empty line). -/
inductive StepRes where
  | ok (st : CState)
  | err (e : CompErr)
  | panic
deriving DecidableEq

/-- The dispatch of the compile loop on one comma-trimmed `line`.
Mirrors `Compile`: a field starting `_` is a blind directive, a field
containing `/` a binding directive, otherwise a pending-suffix literal
or a pure constant. `line[0]` on an empty line is a panic. -/
def stepLine (pos : Nat) (s : CState) : List Byte → StepRes
  | [] => .panic
  | c0 :: r0 =>
    if c0 = '_' then
      if (c0 :: r0).length = 1 then .ok { s with st := .blind }
      else
        match splitOnChar ':' (c0 :: r0) with
        | [_, t1] =>
          match parseIntGo t1 with
          | some n =>
            let mem' := s.mem.push n
            .ok { s with mem := mem',
                         insts := s.insts ++ [.varSized pos mem'.lastPtr false] }
          | none =>
            match lookupBind s.binds t1 with
            | none => .err ⟨.varNotDefined t1, pos⟩
            | some idx =>
              .ok { s with insts := s.insts ++ [.varSized pos (s.mem.ptrAt idx) false] }
        | _ => .err ⟨.colonExpected, pos⟩
    else if (c0 :: r0).contains '/' then
      match splitOnChar '/' (c0 :: r0) with
      | [t0, t1] =>
        if t1.length < 3 then .err ⟨.invalidType, pos⟩
        else if t1.take 3 = ['b', 'i', 'n'] then
          match splitOnChar ':' t1 with
          | s0 :: sub =>
            if s0 ≠ ['b', 'i', 'n'] then .err ⟨.invalidType, pos⟩
            else
              match sub with
              | [s1] =>
                match parseIntGo s1 with
                | some n =>
                  let mem' := s.mem.push n
                  .ok { s with mem := mem',
                               insts := s.insts ++ [.varSized pos mem'.lastPtr true] }
                | none =>
                  match lookupBind s.binds s1 with
                  | none => .err ⟨.varNotDefined s1, pos⟩
                  | some idx =>
                    .ok { s with insts := s.insts ++ [.varSized pos (s.mem.ptrAt idx) true] }
              | _ => .ok { s with st := .bin }
          | [] => .panic
        else if t1.take 3 = ['i', 'n', 't'] then
          match splitOnChar ':' t1 with
          | s0 :: sub =>
            if s0 ≠ ['i', 'n', 't'] then .err ⟨.invalidType, pos⟩
            else
              match sub with
              | [s1] =>
                match parseIntGo s1 with
                | some n =>
                  let mem1 := s.mem.push n
                  let mem2 := mem1.push 0
                  .ok { s with mem := mem2,
                               binds := (t0, mem2.live.length - 1) :: s.binds,
                               insts := s.insts ++
                                 [.intSized pos ⟨mem2.gen, mem2.live.length - 2⟩ mem2.lastPtr] }
                | none =>
                  match lookupBind s.binds s1 with
                  | none => .err ⟨.varNotDefined s1, pos⟩
                  | some idx =>
                    let mem1 := s.mem.push 0
                    .ok { s with mem := mem1,
                                 binds := (t0, mem1.live.length - 1) :: s.binds,
                                 insts := s.insts ++
                                   [.intSized pos (mem1.ptrAt idx) mem1.lastPtr] }
              | _ => .ok { s with st := .int, pending := t0 }
          | [] => .panic
        else .err ⟨.invalidType, pos⟩
      | _ => .err ⟨.invalidSlash, pos⟩
    else if s.st ≠ .non then
      match s.st with
      | .blind =>
        .ok { s with st := .non,
                     insts := s.insts ++ [.varSuffix pos (c0 :: r0) false s.maxv] }
      | .bin =>
        .ok { s with st := .non,
                     insts := s.insts ++ [.varSuffix pos (c0 :: r0) true s.maxv] }
      | .int =>
        let mem1 := s.mem.push 0
        .ok { s with st := .non, mem := mem1,
                     binds := (s.pending, mem1.live.length - 1) :: s.binds,
                     insts := s.insts ++ [.intSuffix pos (c0 :: r0) mem1.lastPtr s.maxv] }
      | .non => .ok s
    else .ok { s with insts := s.insts ++ [.constI pos (c0 :: r0)] }

/-- The body of the compile loop for one raw line (the text delivered by
`ReadString(',')`, trailing comma included): indexing an empty `rawLine`
is a panic, otherwise the trailing comma is trimmed and the line
dispatched. -/
def stepField (pos : Nat) (rawLine : List Byte) (s : CState) : StepRes :=
  match rawLine with
  | [] => .panic
  | _ :: _ =>
    stepLine pos s (if rawLine.getLast? = some ',' then rawLine.dropLast else rawLine)

/-- Result of `Compile`: a matcher (final compile state), a compile
error, or a Go panic. -/
inductive CResult where
  | ok (m : CState)
  | err (e : CompErr)
  | panic
deriving DecidableEq

/-- The compile loop over the raw lines: process each line, advancing
`pos` by the raw (comma-inclusive) length; after the last line (the one
`ReadString` returned with `io.EOF`), a non-`non` parse state is a
`SuffixExpected` error at that line's position. -/
def compileFrom : List (List Byte) → CState → Nat → CResult
  | [], s, _ => .ok s
  | f :: rest, s, pos =>
    match stepField pos f s with
    | .panic => .panic
    | .err e => .err e
    | .ok s' =>
      match rest with
      | [] => if s'.st ≠ .non then .err ⟨.suffixExpected, pos⟩ else .ok s'
      | _ :: _ => compileFrom rest s' (pos + f.length)

/-- The initial compile state for a resolved `maxVariableSize`
(`intBinds` starts as a nil slice: length 0, capacity 0). -/
def initState (maxv : Int) : CState := ⟨[], ⟨[], [], 0⟩, [], .non, [], maxv⟩

/-- `Compile(pattern)` with the resolved `maxVariableSize` value. -/
def compileWith (maxv : Int) (p : List Byte) : CResult :=
  compileFrom (rawFields p) (initState maxv) 1

/-- `Compile(pattern)` with the default `maxVariableSize` (4096). -/
def compileChars (p : List Byte) : CResult := compileWith 4096 p

/-- Compile, then `MatchReader`: `none` when compilation does not
produce a matcher. -/
def matchPattern (p : List Byte) (src : Src) : Option MatchRes :=
  match compileChars p with
  | .ok m => some (runInsts m.insts src m.mem)
  | _ => none

/-- The capture list of a successful compile-and-match. -/
def matchCaps (p : List Byte) (src : Src) : Option (List (List Byte)) :=
  match matchPattern p src with
  | some (.ok caps _ _) => some caps
  | _ => none

/-- The runtime error of a compile-then-match that fails at match time. -/
def matchErr (p : List Byte) (src : Src) : Option RunError :=
  match matchPattern p src with
  | some (.err e) => some e
  | _ => none

/-- The unread byte content left after a successful compile-and-match. -/
def matchRest (p : List Byte) (src : Src) : Option (List Byte) :=
  match matchPattern p src with
  | some (.ok _ rest _) => some rest.flatten
  | _ => none

/-- Number of instructions of a successfully compiled pattern. -/
def compiledCount (p : List Byte) : Option Nat :=
  match compileChars p with
  | .ok m => some m.insts.length
  | _ => none

/-- Whether an instruction is capturing (returns a non-nil buffer on
success): capturing `VarSized`/`VarSuffix`, and every `IntSized`/
`IntSuffix`; `Const` never captures. -/
def instCaptures : Inst → Bool
  | .constI _ _ => false
  | .varSized _ _ c => c
  | .varSuffix _ _ c _ => c
  | .intSized _ _ _ => true
  | .intSuffix _ _ _ _ => true

/-- The fixed-size instructions (those that read by repeated
`Read(buf[i:])` into a pre-sized buffer): `Const`, `VarSized`,
`IntSized`. -/
def fixedSize : Inst → Bool
  | .constI _ _ => true
  | .varSized _ _ _ => true
  | .intSized _ _ _ => true
  | _ => false

/-- Observation of an execution result that forgets the chunk structure
of the remaining source (it keeps its byte content). -/
inductive ObsRes where
  | ok (cap : Option (List Byte)) (restBytes : List Byte) (mem : Mem)
  | err (e : RunError)
  | crash
deriving DecidableEq

/-- Forget the chunking of the remaining source. -/
def toObs : ExecRes → ObsRes
  | .ok c r m => .ok c r.flatten m
  | .err e => .err e
  | .crash => .crash

/-- What filling `n` bytes from a stream with byte content `bs` should
produce: the first `n` bytes (and the rest), or an EOF error when fewer
than `n` bytes remain. -/
def fillSpec (bs : List Byte) (n : Nat) : Option (List Byte × List Byte) :=
  if n ≤ bs.length then some (bs.take n, bs.drop n) else none

/-- Run the compile-loop body over a list of raw lines without the
final-line EOF handling; `none` on any error or panic. Used to state
that the lines preceding an offending line compiled cleanly. -/
def runSteps : List (List Byte) → CState → Nat → Option CState
  | [], s, _ => some s
  | f :: rest, s, pos =>
    match stepField pos f s with
    | .ok s' => runSteps rest s' (pos + f.length)
    | _ => none

/-- Modelled from the spec claim's words: a capturing field is
`name/bin*` or `name/int*` — it does not begin with `_` and consists of
a name, one `/`, and a type token starting `bin` or `int`. -/
def specCapturingField (f : List Byte) : Bool :=
  f.head? != some '_' &&
    match splitOnChar '/' f with
    | [_, t] => (t.take 3 == ['b', 'i', 'n']) || (t.take 3 == ['i', 'n', 't'])
    | _ => false

/-- Modelled from the spec claim's words: the number of capturing fields
of a pattern (fields are the comma-separated pieces). -/
def specCapturingCount (p : List Byte) : Nat :=
  ((splitOnChar ',' p).filter specCapturingField).length

/-! ### Basic lemmas about the source model -/

theorem readByte_size_eq {src : Src} {b : Byte} {src' : Src}
    (h : readByte src = some (b, src')) : srcSize src = srcSize src' + 1 := by
  induction src with
  | nil => simp [readByte] at h
  | cons c rest ih =>
    match c with
    | [] =>
      simp only [readByte] at h
      have := ih h
      simpa [srcSize] using this
    | x :: xs =>
      simp only [readByte, Option.some.injEq, Prod.mk.injEq] at h
      obtain ⟨_, h2⟩ := h
      subst h2
      simp [srcSize]
      omega

/-- The scan result does not depend on the fuel, as long as the fuel
exceeds the number of unread bytes (each loop iteration consumes one). -/
theorem scan_fuel_irrelevant (sfx : List Byte) (maxv : Int) :
    ∀ (f₁ f₂ : Nat) (src : Src) (buf : List Byte) (idx midx bs : Nat),
      srcSize src < f₁ → srcSize src < f₂ →
      scan sfx maxv f₁ src buf idx midx bs = scan sfx maxv f₂ src buf idx midx bs := by
  intro f₁
  induction f₁ with
  | zero => intro f₂ src buf idx midx bs h1 _; omega
  | succ n ih =>
    intro f₂ src buf idx midx bs h1 h2
    match f₂ with
    | 0 => omega
    | m + 1 =>
      simp only [scan]
      cases hr : readByte src with
      | none => rfl
      | some p =>
        obtain ⟨b, src'⟩ := p
        have hsz := readByte_size_eq hr
        simp only []
        split
        · rfl
        · split
          · split
            · rfl
            · exact ih m src' _ _ _ _ (by omega) (by omega)
          · exact ih m src' _ _ _ _ (by omega) (by omega)

/-! ### Sanity checks: the embedding replayed against the repository's
own test table (`TestCompileAndMatch` and the instruction tests). -/

example : matchCaps ("N/int,\r\n".toList) [("123\r\n".toList)] = some [['1', '2', '3']] := by
  decide

example : matchCaps ("_,\r\n".toList) [("deadbeaf\r\n".toList)] = some [] := by decide

example : matchCaps ("_:4".toList) [("dead".toList)] = some [] := by decide

example : matchCaps ("N/int,\r\n,_:N".toList) [("4\r\nbeaf".toList)] = some [['4']] := by decide

example : compileChars ("N/int,\r\n,_:M".toList) = .err ⟨.varNotDefined ['M'], 10⟩ := by decide

example : matchErr ("Number/int,\r\n,_:Number".toList) [("4\r\nbea".toList)] =
    some ⟨.varNotMuch, 15, some .ioEOF⟩ := by decide

example : matchCaps ("V/bin:3,N/int:1,\t,N2/int:N,var/bin:N2".toList)
    [("abc1\t8deadbeaf".toList)] =
    some [("abc".toList), ['1'], ['8'], ("deadbeaf".toList)] := by decide

example : compileChars ("N/int".toList) = .err ⟨.suffixExpected, 1⟩ := by decide

example : compileChars ("N/int/bin".toList) = .err ⟨.invalidSlash, 1⟩ := by decide

example : compileChars ("hoge,N/bi".toList) = .err ⟨.invalidType, 6⟩ := by decide

example : compileChars ("foo,N/binary".toList) = .err ⟨.invalidType, 5⟩ := by decide

example : execInst (.varSuffix 4 ("buzz".toList) true 16)
    [("foobarfoobarfoobarbuzz".toList)] ⟨[], [], 0⟩ =
    .err ⟨.varExceedMax 16, 4, none⟩ := by decide

example : execInst (.varSuffix 3 ("buzz".toList) true 1024)
    [("foobarfoobarfoobarbuzz".toList)] ⟨[], [], 0⟩ =
    .ok (some ("foobarfoobarfoobar".toList)) [[]] ⟨[], [], 0⟩ := by decide

/-- A back-reference with no intervening reallocation works: the
producer and consumer pointers refer to the same backing array. -/
theorem backref_without_realloc :
    matchCaps ("N/int,Z,_:N".toList) [("3Zxyz".toList)] = some [['3']] ∧
    matchRest ("N/int,Z,_:N".toList) [("3Zxyz".toList)] = some [] := by decide

/-! ### Claim theorems -/

/-- C1: back-reference consistency fails once compilation reallocates the
cell vector between the producer's and the consumer's pointer capture.
In `N/int,Z,_:5,_:N` the literal cell appended for `_:5` reallocates
`intBinds`, so the producer of `N` writes into the frozen old array
while `_:N` reads the new one (still 0). On input `3Zabcdexy` the
producer parses `3`, yet `_:N` consumes 0 bytes: the match succeeds with
`xy` unread, where the claim requires 3 further bytes to be consumed
(an EOF failure here). -/
theorem c1_backref_realloc_bug :
    matchCaps ("N/int,Z,_:5,_:N".toList) [("3Zabcdexy".toList)] = some [['3']] ∧
    matchRest ("N/int,Z,_:5,_:N".toList) [("3Zabcdexy".toList)] = some ['x', 'y'] := by
  decide

/-- C2 counterexample: after a pending `_` directive, the field `N/int`
is NOT taken as its 5-byte literal suffix: the compiler parses it as a
new integer directive (the blind directive is silently dropped), so
`_,N/int,X` compiles to a single `IntSuffix` instruction and the input
`abN/intX` — which the claim says matches (blind-scan to the suffix
`N/int`, then the constant `X`) — instead fails to parse `abN/int` as an
integer. -/
theorem c2_counterexample :
    compiledCount ("_,N/int,X".toList) = some 1 ∧
    matchErr ("_,N/int,X".toList) [("abN/intX".toList)] =
      some ⟨.intVarNotMuch, 9, some (.numErr ("abN/int".toList))⟩ := by decide

/-- C3 counterexample: `V/bin:1:2` splits on `:` into three tokens, yet
`Compile` does not fail with `ColonExpected` at position 1 — it treats
the field as a suffix-terminated binary directive, and the resulting
matcher happily matches `abZ` capturing `ab`. -/
theorem c3_counterexample :
    matchCaps ("V/bin:1:2,Z".toList) [("abZ".toList)] = some [("ab".toList)] := by decide

/-- C4 counterexample: a `VarSuffix` instruction compiled with
`maxVariableSize = 8` (below the initial 16-byte buffer) reads and holds
13 bytes — more than 8 — and succeeds with a 12-byte capture, instead of
failing with `VarExceedsMaxSize(8)` when the buffer would have to grow
past 8 bytes. -/
theorem c4_counterexample :
    execInst (.varSuffix 1 ['Z'] true 8) [("AAAAAAAAAAAAZ".toList)] ⟨[], [], 0⟩ =
      .ok (some ("AAAAAAAAAAAA".toList)) [[]] ⟨[], [], 0⟩ := by decide

/-- C6 counterexample: `V/bin,N/int,X` has two capturing fields in the
claim's sense (`V/bin` and `N/int`), but matching `5X` returns a single
capture: the pending `V/bin` directive was overwritten by the `N/int`
field and emitted no instruction. -/
theorem c6_counterexample :
    matchCaps ("V/bin,N/int,X".toList) [("5X".toList)] = some [['5']] ∧
    specCapturingCount ("V/bin,N/int,X".toList) = 2 := by decide

/-- C8: a `VarSized` instruction whose size cell holds 0 succeeds
without touching the source (the fill loop body never runs), yielding an
empty capture when capturing and none otherwise. -/
theorem c8_zero_size (pos : Nat) (sz : Ptr) (capture : Bool) (src : Src) (mem : Mem)
    (h : mem.read sz = 0) :
    execInst (.varSized pos sz capture) src mem =
      .ok (if capture then some [] else none) src mem := by
  simp [execInst, h, fill]

theorem c8_zero_size_witness :
    Mem.read ⟨[], [0], 1⟩ ⟨0, 0⟩ = 0 ∧
    execInst (.varSized 3 ⟨0, 0⟩ true) [['a']] ⟨[], [0], 1⟩ =
      .ok (some []) [['a']] ⟨[], [0], 1⟩ :=
  ⟨by decide, c8_zero_size 3 ⟨0, 0⟩ true [['a']] ⟨[], [0], 1⟩ (by decide)⟩

/-- C9 counterexample: a negative consumer cell does not produce a
`VarNotMatched` error: `_:-3` compiles (ParseInt accepts `-3`), and any
match attempt panics in `make([]byte, -3)` — a crash, not a structured
error. -/
theorem c9_counterexample :
    matchPattern ("_:-3".toList) [[]] = some .crash := by decide

/-- C9 amended: a sized instruction (`VarSized` or `IntSized`) whose
consumer size cell is negative at execution time crashes (the Go runtime
panics in `make([]byte, n)` with negative `n`); no `VarNotMatched` error
is produced. -/
theorem c9_amended (pos : Nat) (sz outc : Ptr) (capture : Bool) (src : Src) (mem : Mem)
    (h : mem.read sz < 0) :
    execInst (.varSized pos sz capture) src mem = .crash ∧
    execInst (.intSized pos sz outc) src mem = .crash := by
  constructor <;> simp [execInst, h]

theorem c9_amended_witness :
    Mem.read ⟨[], [-3], 1⟩ ⟨0, 0⟩ < 0 ∧
    execInst (.varSized 1 ⟨0, 0⟩ true) [['a']] ⟨[], [-3], 1⟩ = .crash ∧
    execInst (.intSized 1 ⟨0, 0⟩ ⟨0, 0⟩) [['a']] ⟨[], [-3], 1⟩ = .crash :=
  ⟨by decide, c9_amended 1 ⟨0, 0⟩ ⟨0, 0⟩ true [['a']] ⟨[], [-3], 1⟩ (by decide)⟩

/-- C10 counterexample: `x//y,` ends in a trailing comma, yet `Compile`
returns the structured `InvalidSlash` error of its first field instead
of reaching the empty last field and panicking. -/
theorem c10_counterexample :
    compileChars ("x//y,".toList) = .err ⟨.invalidSlash, 1⟩ := by decide

theorem stepField_nil (pos : Nat) (s : CState) : stepField pos [] s = .panic := rfl

theorem stepField_comma (pos : Nat) (s : CState) : stepField pos [','] s = .panic := by
  simp [stepField, stepLine]

theorem compileFrom_not_ok :
    ∀ (fields : List (List Byte)) (s : CState) (pos : Nat) (m : CState),
      (∃ f ∈ fields, f = [] ∨ f = [',']) → compileFrom fields s pos ≠ .ok m := by
  intro fields
  induction fields with
  | nil => intro s pos m hbad; simp at hbad
  | cons f rest ih =>
    intro s pos m hbad
    obtain ⟨g, hg, hgbad⟩ := hbad
    simp only [compileFrom]
    cases hstep : stepField pos f s with
    | panic => simp
    | err e => simp
    | ok s' =>
      rcases List.mem_cons.mp hg with rfl | hgrest
      · rcases hgbad with rfl | rfl
        · rw [stepField_nil] at hstep; exact absurd hstep (by simp)
        · rw [stepField_comma] at hstep; exact absurd hstep (by simp)
      · cases rest with
        | nil => simp at hgrest
        | cons r rs => exact ih s' (pos + f.length) m ⟨g, hgrest, hgbad⟩

theorem rawFields_ends_comma (l : List Byte) :
    ∃ f fs, rawFields (l ++ [',']) = f :: fs ∧ [] ∈ fs := by
  induction l with
  | nil => exact ⟨[','], [[]], by simp [rawFields], by simp⟩
  | cons c l' ih =>
    obtain ⟨f, fs, heq, hmem⟩ := ih
    by_cases hc : c = ','
    · subst hc
      exact ⟨[','], f :: fs, by simp [rawFields, heq], by simp [hmem]⟩
    · exact ⟨c :: f, fs, by simp only [List.cons_append, rawFields, if_neg hc, List.append_eq, heq], hmem⟩

theorem rawFields_double_comma (l r : List Byte) :
    ∃ f fs, rawFields (l ++ ',' :: ',' :: r) = f :: fs ∧ [','] ∈ fs := by
  induction l with
  | nil =>
    refine ⟨[','], rawFields (',' :: r), by simp [rawFields], ?_⟩
    simp [rawFields]
  | cons c l' ih =>
    obtain ⟨f, fs, heq, hmem⟩ := ih
    by_cases hc : c = ','
    · subst hc
      exact ⟨[','], f :: fs, by simp [rawFields, heq], by simp [hmem]⟩
    · exact ⟨c :: f, fs, by simp only [List.cons_append, rawFields, if_neg hc, List.append_eq, heq], hmem⟩

/-- C10 amended: `Compile` panics (out-of-range slice index) on the
empty pattern and on the concrete trailing-comma and double-comma
patterns; in general a pattern ending in a comma or containing two
adjacent commas never compiles successfully — compilation either
panics on the empty field or returns a structured error raised by an
earlier field (see the counterexample), so the operation is partial. -/
theorem c10_amended :
    compileChars [] = .panic ∧
    compileChars ("a,".toList) = .panic ∧
    compileChars ("a,,b".toList) = .panic ∧
    (∀ p : List Byte, p.getLast? = some ',' → ∀ m, compileChars p ≠ .ok m) ∧
    (∀ l r : List Byte, ∀ m, compileChars (l ++ ',' :: ',' :: r) ≠ .ok m) := by
  refine ⟨by decide, by decide, by decide, ?_, ?_⟩
  · intro p hlast m
    have hne : p ≠ [] := by rintro rfl; simp at hlast
    have hsplit : p.dropLast ++ [p.getLast hne] = p := List.dropLast_append_getLast hne
    have hcomma : p.getLast hne = ',' := by
      have := List.getLast?_eq_getLast p hne
      rw [hlast] at this
      exact (Option.some.injEq _ _).mp this.symm
    rw [hcomma] at hsplit
    obtain ⟨f, fs, heq, hmem⟩ := rawFields_ends_comma p.dropLast
    rw [hsplit] at heq
    refine compileFrom_not_ok (rawFields p) (initState 4096) 1 m ⟨[], ?_, Or.inl rfl⟩
    rw [heq]
    exact List.mem_cons_of_mem f hmem
  · intro l r m
    obtain ⟨f, fs, heq, hmem⟩ := rawFields_double_comma l r
    refine compileFrom_not_ok _ (initState 4096) 1 m ⟨[','], ?_, Or.inr rfl⟩
    rw [heq]
    exact List.mem_cons_of_mem f hmem

theorem c10_amended_witness :
    ("b,".toList).getLast? = some ',' ∧
    compileChars ("b,".toList) ≠ .ok (initState 4096) :=
  ⟨by decide, c10_amended.2.2.2.1 ("b,".toList) (by decide) (initState 4096)⟩

set_option maxHeartbeats 1000000 in
theorem stepLine_err_pos {pos : Nat} {s : CState} {line : List Byte} {e : CompErr}
    (h : stepLine pos s line = .err e) : e.pos = pos := by
  unfold stepLine at h
  iterate 12 all_goals try split at h
  all_goals try (simp at h)
  all_goals subst h
  all_goals rfl

theorem stepField_err_pos {pos : Nat} {f : List Byte} {s : CState} {e : CompErr}
    (h : stepField pos f s = .err e) : e.pos = pos := by
  unfold stepField at h
  split at h
  · simp at h
  · exact stepLine_err_pos h

theorem compileFrom_err_pos :
    ∀ (fields : List (List Byte)) (s : CState) (pos : Nat) (e : CompErr),
      compileFrom fields s pos = .err e →
      ∃ k s', k < fields.length ∧ runSteps (fields.take k) s pos = some s' ∧
        e.pos = pos + ((fields.take k).map List.length).sum := by
  intro fields
  induction fields with
  | nil => intro s pos e h; simp [compileFrom] at h
  | cons f rest ih =>
    intro s pos e h
    simp only [compileFrom] at h
    cases hstep : stepField pos f s with
    | panic => simp [hstep] at h
    | err e' =>
      simp only [hstep, CResult.err.injEq] at h
      subst h
      exact ⟨0, s, by simp, by simp [runSteps], by simpa using stepField_err_pos hstep⟩
    | ok s' =>
      simp only [hstep] at h
      cases rest with
      | nil =>
        split at h
        · split at h
          · simp only [CResult.err.injEq] at h
            exact ⟨0, s, by simp, by simp [runSteps], by simp [← h]⟩
          · simp at h
        · simp_all
      | cons r rs =>
        obtain ⟨k, s'', hk, hrun, hpos⟩ := ih s' (pos + f.length) e h
        refine ⟨k + 1, s'', by simpa using hk, ?_, ?_⟩
        · simp only [List.take_succ_cons, runSteps, hstep]
          exact hrun
        · simp only [List.take_succ_cons, List.map_cons, List.sum_cons]
          omega

/-- C5: every structured compile-time error is reported at the position
of the offending raw field: there is a field index `k` such that the
first `k` raw (comma-inclusive) fields compile cleanly and the reported
position is 1 plus the sum of their raw lengths (so the first field is
at position 1). -/
theorem c5_error_positions (p : List Byte) (e : CompErr)
    (h : compileChars p = .err e) :
    ∃ k s', k < (rawFields p).length ∧
      runSteps ((rawFields p).take k) (initState 4096) 1 = some s' ∧
      e.pos = 1 + (((rawFields p).take k).map List.length).sum :=
  compileFrom_err_pos (rawFields p) (initState 4096) 1 e h

/-- C2 amended: the field following a pending suffix-terminated
directive is taken as its literal suffix only when it neither begins
with `_` nor contains `/`: such a field emits the pending suffix
instruction (for an integer directive also allocating and binding the
output cell) and clears the pending state. A directive-shaped following
field is never taken as the suffix; it is parsed as a new directive:
a sized directive leaves the pending state untouched (so the pending
directive is still suffix-terminated by the next plain field —
`_,V/bin:2,Q` compiles to `[VarSized, VarSuffix]` and `Q` terminates
the blind directive), while a suffix-less directive overwrites the
pending state, dropping the earlier pending directive (see the
counterexample for `_,N/int,X`). -/
theorem c2_amended (pos : Nat) (s : CState) (line : List Byte)
    (hne : line ≠ []) (hhead : line.head? ≠ some '_')
    (hslash : line.contains '/' = false) :
    (s.st = .blind → stepLine pos s line =
      .ok { s with st := .non, insts := s.insts ++ [.varSuffix pos line false s.maxv] }) ∧
    (s.st = .bin → stepLine pos s line =
      .ok { s with st := .non, insts := s.insts ++ [.varSuffix pos line true s.maxv] }) ∧
    (s.st = .int → stepLine pos s line =
      .ok { s with st := .non, mem := s.mem.push 0,
                   binds := (s.pending, (s.mem.push 0).live.length - 1) :: s.binds,
                   insts := s.insts ++ [.intSuffix pos line (s.mem.push 0).lastPtr s.maxv] }) ∧
    (∀ r1 t0 t1 n, splitOnChar ':' ('_' :: r1) = [t0, t1] → parseIntGo t1 = some n →
      stepLine pos s ('_' :: r1) =
        .ok { s with mem := s.mem.push n,
                     insts := s.insts ++ [.varSized pos (s.mem.push n).lastPtr false] }) ∧
    compileChars ("_,V/bin:2,Q".toList) =
      .ok ⟨[.varSized 3 ⟨1, 0⟩ true, .varSuffix 11 ['Q'] false 4096],
           ⟨[[]], [2], 1⟩, [], .non, [], 4096⟩ ∧
    matchCaps ("_,V/bin:2,Q".toList) [("xyabQ".toList)] = some [['x', 'y']] := by
  cases line with
  | nil => exact absurd rfl hne
  | cons c0 r0 =>
    have hc0 : c0 ≠ '_' := by simpa using hhead
    have hmem : ¬('/' = c0 ∨ '/' ∈ r0) := by simpa using hslash
    refine ⟨fun hst => ?_, fun hst => ?_, fun hst => ?_, ?_, by decide, by decide⟩
    · simp [stepLine, hc0, hmem, hst]
    · simp [stepLine, hc0, hmem, hst]
    · simp [stepLine, hc0, hmem, hst]
    · intro r1 t0 t1 n hsp hp
      cases r1 with
      | nil => simp [splitOnChar] at hsp
      | cons c1 r2 =>
        have hlen : ('_' :: c1 :: r2).length ≠ 1 := by simp
        simp [stepLine, hsp, hp, hlen]

theorem c2_amended_witness :
    (("ab".toList : List Byte) ≠ [] ∧
      ("ab".toList).head? ≠ some '_' ∧ ("ab".toList).contains '/' = false) ∧
    stepLine 3 ⟨[], ⟨[], [], 0⟩, [], .blind, [], 4096⟩ ("ab".toList) =
      .ok ⟨[.varSuffix 3 ("ab".toList) false 4096], ⟨[], [], 0⟩, [], .non, [], 4096⟩ :=
  ⟨⟨by decide, by decide, by decide⟩, by
    have := (c2_amended 3 ⟨[], ⟨[], [], 0⟩, [], .blind, [], 4096⟩ ("ab".toList)
      (by decide) (by decide) (by decide)).1 rfl
    simpa using this⟩

/-- C3 amended: `ColonExpected` is raised only by blind (`_`) fields: a
`_`-field of length at least 2 whose `:`-split is not exactly two tokens
fails with `ColonExpected` at the field's position, while a binding
directive with extra colons after the type token (e.g. `V/bin:1:2`,
whose `:`-split has three tokens) is not an error at all — it is
treated as a suffix-terminated directive (parse state set to binary). -/
theorem c3_amended (pos : Nat) (s : CState) :
    (∀ r0 : List Byte, r0 ≠ [] →
      (splitOnChar ':' ('_' :: r0)).length ≠ 2 →
      stepLine pos s ('_' :: r0) = .err ⟨.colonExpected, pos⟩) ∧
    (∀ line t0 t1 s1 s2 sub, line.head? ≠ some '_' →
      line.contains '/' = true →
      splitOnChar '/' line = [t0, t1] →
      splitOnChar ':' t1 = ['b', 'i', 'n'] :: s1 :: s2 :: sub →
      t1.take 3 = ['b', 'i', 'n'] →
      stepLine pos s line = .ok { s with st := .bin }) := by
  constructor
  · intro r0 hr0 hsp
    have hlen : ('_' :: r0).length ≠ 1 := by
      simpa [List.length_eq_zero] using hr0
    rcases hx : splitOnChar ':' ('_' :: r0) with _ | ⟨a, _ | ⟨b, _ | ⟨c, rest⟩⟩⟩
    · simp [stepLine, hx, hr0]
    · simp [stepLine, hx, hr0]
    · rw [hx] at hsp; simp at hsp
    · simp [stepLine, hx, hr0]
  · intro line t0 t1 s1 s2 sub hhead hslash hsl hsp htake
    cases line with
    | nil => simp at hslash
    | cons c0 r0 =>
      have hc0 : c0 ≠ '_' := by simpa using hhead
      have hmem : ('/' = c0 ∨ '/' ∈ r0) := by simpa using hslash
      have h3 : ¬ t1.length < 3 := by
        have := congrArg List.length htake
        simp [List.length_take] at this
        omega
      simp [stepLine, hc0, hmem, hsl, h3, htake, hsp]

theorem c3_amended_witness :
    ((":N:0".toList : List Byte) ≠ [] ∧
      (splitOnChar ':' ('_' :: ":N:0".toList)).length ≠ 2) ∧
    stepLine 10 (initState 4096) ('_' :: ":N:0".toList) = .err ⟨.colonExpected, 10⟩ :=
  ⟨⟨by decide, by decide⟩,
    (c3_amended 10 (initState 4096)).1 (":N:0".toList) (by decide) (by decide)⟩

theorem execInst_cap_captures {i : Inst} {src : Src} {mem : Mem}
    {cap : Option (List Byte)} {rest : Src} {mem' : Mem}
    (h : execInst i src mem = .ok cap rest mem') : cap.isSome = instCaptures i := by
  cases i with
  | constI pos pat =>
    simp only [execInst] at h
    split at h
    · exact absurd h (by simp)
    · split at h
      · simp only [ExecRes.ok.injEq] at h
        obtain ⟨h1, -, -⟩ := h
        rw [← h1]; simp [instCaptures]
      · exact absurd h (by simp)
  | varSized pos sz capture =>
    simp only [execInst] at h
    split at h
    · exact absurd h (by simp)
    · split at h
      · exact absurd h (by simp)
      · simp only [ExecRes.ok.injEq] at h
        obtain ⟨h1, -, -⟩ := h
        rw [← h1]
        cases capture <;> simp [instCaptures]
  | intSized pos sz outc =>
    simp only [execInst] at h
    split at h
    · exact absurd h (by simp)
    · split at h
      · exact absurd h (by simp)
      · split at h
        · exact absurd h (by simp)
        · simp only [ExecRes.ok.injEq] at h
          obtain ⟨h1, -, -⟩ := h
          rw [← h1]; simp [instCaptures]
  | varSuffix pos sfx capture maxv =>
    simp only [execInst] at h
    split at h
    · simp only [ExecRes.ok.injEq] at h
      obtain ⟨h1, -, -⟩ := h
      rw [← h1]
      cases capture <;> simp [instCaptures]
    · exact absurd h (by simp)
    · exact absurd h (by simp)
  | intSuffix pos sfx outc maxv =>
    simp only [execInst] at h
    split at h
    · split at h
      · exact absurd h (by simp)
      · simp only [ExecRes.ok.injEq] at h
        obtain ⟨h1, -, -⟩ := h
        rw [← h1]; simp [instCaptures]
    · exact absurd h (by simp)
    · exact absurd h (by simp)

/-- C6 amended: on a successful match the capture list has exactly one
entry per capturing instruction, in instruction (hence field) order; a
`name/bin`/`name/int` field whose pending directive is overwritten by a
directive-shaped following field emits no instruction and therefore no
capture (see the counterexample). -/
theorem c6_amended :
    ∀ (insts : List Inst) (src : Src) (mem : Mem) (caps : List (List Byte))
      (rest : Src) (mem' : Mem),
      runInsts insts src mem = .ok caps rest mem' →
      caps.length = (insts.filter instCaptures).length := by
  intro insts
  induction insts with
  | nil =>
    intro src mem caps rest mem' h
    simp only [runInsts, MatchRes.ok.injEq] at h
    simp [← h.1]
  | cons i tl ih =>
    intro src mem caps rest mem' h
    simp only [runInsts] at h
    cases hx : execInst i src mem with
    | crash => simp [hx] at h
    | err e => simp [hx] at h
    | ok cap src' mem'' =>
      simp only [hx] at h
      cases hr : runInsts tl src' mem'' with
      | crash => simp [hr] at h
      | err e => simp [hr] at h
      | ok caps' r m =>
        simp only [hr, MatchRes.ok.injEq] at h
        obtain ⟨h1, -, -⟩ := h
        have hcap := execInst_cap_captures hx
        cases cap with
        | none =>
          simp only [Option.isSome_none] at hcap
          simp only [] at h1
          rw [← h1, List.filter_cons, ← hcap]
          simpa using ih src' mem'' caps' r m hr
        | some c =>
          simp only [Option.isSome_some] at hcap
          simp only [] at h1
          rw [← h1, List.filter_cons, ← hcap]
          simpa using ih src' mem'' caps' r m hr

theorem c6_amended_witness :
    runInsts [Inst.constI 1 ['a'], .varSized 1 ⟨0, 0⟩ true] [['a', 'b']] ⟨[], [1], 1⟩ =
      .ok [['b']] [] ⟨[], [1], 1⟩ ∧
    ([['b']] : List (List Byte)).length =
      ([Inst.constI 1 ['a'], .varSized 1 ⟨0, 0⟩ true].filter instCaptures).length :=
  ⟨by decide,
    c6_amended [Inst.constI 1 ['a'], .varSized 1 ⟨0, 0⟩ true] [['a', 'b']] ⟨[], [1], 1⟩
      [['b']] [] ⟨[], [1], 1⟩ (by decide)⟩

theorem fillSpec_eq_none {bs : List Byte} {n : Nat} :
    fillSpec bs n = none ↔ bs.length < n := by
  by_cases h : n ≤ bs.length
  all_goals simp [fillSpec, h]
  all_goals omega

theorem fillSpec_eq_pos {bs : List Byte} {n : Nat} (h : n ≤ bs.length) :
    fillSpec bs n = some (bs.take n, bs.drop n) := by
  simp [fillSpec, h]

theorem fill_flatten_eq : ∀ (src : Src) (n : Nat),
    (fill src n).map (fun r => (r.1, r.2.flatten)) = fillSpec src.flatten n := by
  intro src
  induction src with
  | nil =>
    intro n
    cases n with
    | zero => simp [fill, fillSpec]
    | succ m => simp [fill, fillSpec]
  | cons c rest ih =>
    intro n
    cases n with
    | zero => simp [fill, fillSpec]
    | succ m =>
      have hflat : (c :: rest).flatten = c ++ rest.flatten := List.flatten_cons
      by_cases hlt : c.length < m + 1
      · have h2 := ih (m + 1 - c.length)
        by_cases hk : rest.flatten.length < m + 1 - c.length
        · have hnone : fill rest (m + 1 - c.length) = none := by
            cases hf : fill rest (m + 1 - c.length) with
            | none => rfl
            | some p =>
              rw [hf, fillSpec_eq_none.mpr hk] at h2
              simp at h2
          rw [hflat, fillSpec_eq_none.mpr (by rw [List.length_append]; omega)]
          simp [fill, if_pos hlt, hnone]
        · have hk' : m + 1 - c.length ≤ rest.flatten.length := Nat.le_of_not_lt hk
          rw [fillSpec_eq_pos hk'] at h2
          cases hf : fill rest (m + 1 - c.length) with
          | none => rw [hf] at h2; simp at h2
          | some p =>
            obtain ⟨bs, s'⟩ := p
            rw [hf] at h2
            simp only [Option.map_some', Option.some.injEq, Prod.mk.injEq] at h2
            obtain ⟨hbs, hs'⟩ := h2
            rw [hflat, fillSpec_eq_pos (by rw [List.length_append]; omega)]
            simp only [fill, if_pos hlt, hf, Option.map_some', Option.some.injEq,
              Prod.mk.injEq]
            constructor
            · rw [List.take_append_eq_append_take,
                List.take_of_length_le (Nat.le_of_lt hlt), hbs]
            · rw [List.drop_append_eq_append_drop,
                List.drop_of_length_le (Nat.le_of_lt hlt), hs', List.nil_append]
      · have hle : m + 1 ≤ c.length := Nat.le_of_not_lt hlt
        rw [hflat, fillSpec_eq_pos (by rw [List.length_append]; omega)]
        simp only [fill, if_neg hlt, Option.map_some', Option.some.injEq, Prod.mk.injEq]
        have hz : m + 1 - c.length = 0 := by omega
        constructor
        · rw [List.take_append_eq_append_take, hz]
          simp
        · rw [List.drop_append_eq_append_drop, hz, List.drop_zero]
          by_cases hstrict : m + 1 < c.length
          · simp [hstrict]
          · have heq : m + 1 = c.length := by omega
            simp [hstrict, List.drop_of_length_le (Nat.le_of_eq heq.symm)]

/-- C7: short-read tolerance of fixed-size instructions (`Const`,
`VarSized`, `IntSized`): executing against a source that delivers the
same bytes in arbitrary chunkings (EOF after exhaustion) yields the
same capture, the same error and the same memory — the observation is
identical to executing against the single-chunk source. -/
theorem c7_short_read_tolerance (i : Inst) (src : Src) (mem : Mem)
    (hfix : fixedSize i = true) :
    toObs (execInst i src mem) = toObs (execInst i [src.flatten] mem) := by
  have key : ∀ n, (fill src n).map (fun r => (r.1, r.2.flatten)) =
      (fill [src.flatten] n).map (fun r => (r.1, r.2.flatten)) := by
    intro n
    rw [fill_flatten_eq, fill_flatten_eq]
    simp
  cases i with
  | constI pos pat =>
    simp only [execInst]
    have k := key pat.length
    cases hf : fill src pat.length with
    | none =>
      rw [hf] at k
      cases hg : fill [src.flatten] pat.length with
      | none => simp [toObs]
      | some q => rw [hg] at k; simp at k
    | some p =>
      obtain ⟨bs, s'⟩ := p
      rw [hf] at k
      cases hg : fill [src.flatten] pat.length with
      | none => rw [hg] at k; simp at k
      | some q =>
        obtain ⟨bs2, s2⟩ := q
        rw [hg] at k
        simp only [Option.map, Option.some.injEq, Prod.mk.injEq] at k
        obtain ⟨hb, hs⟩ := k
        subst hb
        by_cases hpat : bs = pat
        · simp [hpat, toObs, hs]
        · simp [hpat, toObs]
  | varSized pos sz capture =>
    simp only [execInst]
    by_cases hneg : mem.read sz < 0
    · simp [hneg, toObs]
    · simp only [if_neg hneg]
      have k := key (mem.read sz).toNat
      cases hf : fill src (mem.read sz).toNat with
      | none =>
        rw [hf] at k
        cases hg : fill [src.flatten] (mem.read sz).toNat with
        | none => simp [toObs]
        | some q => rw [hg] at k; simp at k
      | some p =>
        obtain ⟨bs, s'⟩ := p
        rw [hf] at k
        cases hg : fill [src.flatten] (mem.read sz).toNat with
        | none => rw [hg] at k; simp at k
        | some q =>
          obtain ⟨bs2, s2⟩ := q
          rw [hg] at k
          simp only [Option.map, Option.some.injEq, Prod.mk.injEq] at k
          obtain ⟨hb, hs⟩ := k
          subst hb
          simp [toObs, hs]
  | intSized pos sz outc =>
    simp only [execInst]
    by_cases hneg : mem.read sz < 0
    · simp [hneg, toObs]
    · simp only [if_neg hneg]
      have k := key (mem.read sz).toNat
      cases hf : fill src (mem.read sz).toNat with
      | none =>
        rw [hf] at k
        cases hg : fill [src.flatten] (mem.read sz).toNat with
        | none => simp [toObs]
        | some q => rw [hg] at k; simp at k
      | some p =>
        obtain ⟨bs, s'⟩ := p
        rw [hf] at k
        cases hg : fill [src.flatten] (mem.read sz).toNat with
        | none => rw [hg] at k; simp at k
        | some q =>
          obtain ⟨bs2, s2⟩ := q
          rw [hg] at k
          simp only [Option.map, Option.some.injEq, Prod.mk.injEq] at k
          obtain ⟨hb, hs⟩ := k
          subst hb
          cases hp : parseIntGo bs with
          | none => simp [toObs, hp]
          | some v => simp [toObs, hp, hs]
  | varSuffix pos sfx capture maxv => simp [fixedSize] at hfix
  | intSuffix pos sfx outc maxv => simp [fixedSize] at hfix

theorem c7_short_read_tolerance_witness :
    fixedSize (.constI 1 ['a', 'b']) = true ∧
    toObs (execInst (.constI 1 ['a', 'b']) [['a'], ['b', 'c']] ⟨[], [], 0⟩) =
      toObs (execInst (.constI 1 ['a', 'b']) [['a', 'b', 'c']] ⟨[], [], 0⟩) :=
  ⟨by decide, c7_short_read_tolerance (.constI 1 ['a', 'b']) [['a'], ['b', 'c']] ⟨[], [], 0⟩
    (by decide)⟩

theorem scan_found_bound (sfx : List Byte) (maxv : Int) (hsfx : sfx ≠ []) :
    ∀ (fuel : Nat) (src : Src) (buf : List Byte) (idx midx bs : Nat)
      (pre : List Byte) (rest : Src),
      buf.length = bs → idx < bs → midx = idx + 1 - sfx.length →
      16 ≤ bs → bs ≤ max 16 maxv.toNat →
      scan sfx maxv fuel src buf idx midx bs = .found pre rest →
      pre.length + sfx.length ≤ max 16 maxv.toNat ∧
      srcSize src + idx = srcSize rest + pre.length + sfx.length := by
  have hs1 : 1 ≤ sfx.length := List.length_pos.mpr hsfx
  intro fuel
  induction fuel with
  | zero =>
    intro src buf idx midx bs pre rest _ _ _ _ _ hscan
    simp [scan] at hscan
  | succ n ih =>
    intro src buf idx midx bs pre rest hbuf hidx hmidx h16 hbound hscan
    rw [scan] at hscan
    cases hread : readByte src with
    | none => rw [hread] at hscan; simp at hscan
    | some p =>
      obtain ⟨b, src'⟩ := p
      rw [hread] at hscan
      simp only [] at hscan
      have hsz := readByte_size_eq hread
      by_cases hcond : sfx.length ≤ idx + 1 ∧
          (((buf.set idx b).drop midx).take sfx.length) = sfx
      · rw [if_pos hcond] at hscan
        simp only [ScanRes.found.injEq] at hscan
        obtain ⟨hpre, hrest⟩ := hscan
        obtain ⟨hc1, _⟩ := hcond
        have hmx : midx + sfx.length = idx + 1 := by omega
        have hplen : pre.length = midx := by
          rw [← hpre]
          rw [List.length_take, List.length_set, hbuf]
          omega
        constructor
        · omega
        · rw [← hrest]
          omega
      · rw [if_neg hcond] at hscan
        by_cases hgrow : idx + 1 = bs
        · rw [if_pos hgrow] at hscan
          by_cases hmax : (2 * bs : Int) > maxv
          · rw [if_pos hmax] at hscan
            simp at hscan
          · rw [if_neg hmax] at hscan
            have h2bs : 2 * bs ≤ max 16 maxv.toNat := by
              have : (2 * bs : Int) ≤ maxv := Int.not_lt.mp hmax
              omega
            have := ih src' ((buf.set idx b) ++ List.replicate bs (Char.ofNat 0))
              (idx + 1) (if sfx.length ≤ idx + 1 then midx + 1 else midx) (2 * bs)
              pre rest
              (by rw [List.length_append, List.length_set, List.length_replicate, hbuf]; omega)
              (by omega)
              (by split <;> omega)
              (by omega) h2bs hscan
            omega
        · rw [if_neg hgrow] at hscan
          have := ih src' (buf.set idx b) (idx + 1)
            (if sfx.length ≤ idx + 1 then midx + 1 else midx) bs pre rest
            (by rw [List.length_set, hbuf])
            (by omega)
            (by split <;> omega)
            h16 hbound hscan
          omega

/-- C4 amended: the growing buffer of a suffix scan starts at 16 bytes
regardless of `maxVariableSize`, so the number of bytes a scan can hold
(and consume) is bounded by `max 16 maxVariableSize`, not by
`maxVariableSize` itself: a successful scan consumes exactly
`|capture| + |suffix|` bytes and that is at most `max 16
maxVariableSize`; when the buffer would have to double beyond
`maxVariableSize` the instruction fails with `VarExceedsMaxSize(max)`
at its position. For limits below 16 the buffer may hold up to 16
bytes (see the counterexample). -/
theorem c4_amended (pos : Nat) (sfx : List Byte) (capture : Bool) (maxv : Int)
    (src : Src) (mem : Mem) (pre : List Byte) (rest : Src)
    (hsfx : sfx ≠ []) :
    (scan sfx maxv (srcSize src + 1) src buf0 0 0 16 = .found pre rest →
      pre.length + sfx.length ≤ max 16 maxv.toNat ∧
      srcSize src = srcSize rest + pre.length + sfx.length) ∧
    (scan sfx maxv (srcSize src + 1) src buf0 0 0 16 = .sizeErr →
      execInst (.varSuffix pos sfx capture maxv) src mem =
        .err ⟨.varExceedMax maxv, pos, none⟩) := by
  constructor
  · intro hscan
    have hs1 : 1 ≤ sfx.length := List.length_pos.mpr hsfx
    have := scan_found_bound sfx maxv hsfx (srcSize src + 1) src buf0 0 0 16 pre rest
      (by simp [buf0]) (by omega) (by omega) (by omega) (by omega) hscan
    omega
  · intro hscan
    simp [execInst, hscan]

theorem c4_amended_witness :
    ((['Z'] : List Byte) ≠ [] ∧
      scan ['Z'] 100 (srcSize [['A', 'Z']] + 1) [['A', 'Z']] buf0 0 0 16 =
        .found ['A'] [[]]) ∧
    ((['A'] : List Byte).length + (['Z'] : List Byte).length ≤ max 16 (Int.toNat 100) ∧
      srcSize [['A', 'Z']] = srcSize [[]] + (['A'] : List Byte).length +
        (['Z'] : List Byte).length) :=
  ⟨⟨by decide, by decide⟩,
    (c4_amended 1 ['Z'] true 100 [['A', 'Z']] ⟨[], [], 0⟩ ['A'] [[]] (by decide)).1
      (by decide)⟩

theorem c5_error_positions_witness :
    compileChars ("foo,N/binary".toList) = .err ⟨.invalidType, 5⟩ ∧
    ∃ k s', k < (rawFields ("foo,N/binary".toList)).length ∧
      runSteps ((rawFields ("foo,N/binary".toList)).take k) (initState 4096) 1 = some s' ∧
      (CompErr.mk .invalidType 5).pos =
        1 + (((rawFields ("foo,N/binary".toList)).take k).map List.length).sum :=
  ⟨by decide, c5_error_positions ("foo,N/binary".toList) ⟨.invalidType, 5⟩ (by decide)⟩

end Gtpm
